import Mathlib

/-!
Shallow embedding of the `BitArray` container from `include/BitArray.hpp`
(dc03/BitArray): a block-packed boolean array parameterised by an integral
block type, together with its forward and reverse bit iterators.

Modelling conventions:
* The block type `T` is represented by its bit width `w = sizeof(T) * CHAR_BIT`
  (`bits_per_block` in the source).  Block values are natural numbers below
  `2 ^ w`; the C++ bitwise operators `|`, `&`, `~`, `^` on `w`-bit blocks are
  `|||`, `&&&`, and `(2 ^ w - 1) ^^^ ·` on `Nat` (integer promotion followed by
  truncation back to the block type preserves the low `w` bits, which is all a
  block stores).
* `long long` / pointer-difference quantities are `Int`; `std::size_t`
  quantities are `Nat`.  The iterator's block pointer is modelled as the
  (integer) offset of the pointer from the start of the block buffer.
* `new block_type[n]` default-initialises built-in types, so the fresh buffer
  holds indeterminate values: the constructor model takes the arbitrary
  initial contents `init` of the allocation as an explicit parameter.
* The mask expression `1 << (...)` is modelled as `2 ^ (...)`, which matches
  the C++ value for the block widths where the shift of the `int` literal `1`
  is defined behaviour; `shl_one_int` / `block_bitmask_cpp` below model the
  `int`-typed shift exactly, including the widths where it is undefined.
-/

/-- The bit-array container: `w` is `bits_per_block` (the width of the chosen
block type), `blocks` the owned block buffer, `bits` the logical bit count. -/
structure BitArray where
  w : Nat
  blocks : List Nat
  bits : Nat
deriving DecidableEq

namespace BitArray

/-- `block_bitmask(index)`:
`(1 << (bits_per_block - (index & (bits_per_block - 1)) - 1))`.
The shift result is modelled as the ideal power of two (see module comment;
`block_bitmask_cpp` models the `int`-width shift exactly). -/
def block_bitmask (w : Nat) (index : Nat) : Nat :=
  2 ^ (w - (index &&& (w - 1)) - 1)

/-- `bit_at(index)`: `blocks[index / bits_per_block] & block_bitmask(index)`,
converted to `bool`.  Out-of-range block reads (undefined behaviour in C++)
are given the default value `0`. -/
def bit_at (a : BitArray) (index : Nat) : Bool :=
  a.blocks.getD (index / a.w) 0 &&& block_bitmask a.w index != 0

/-- `set(index)`: `blocks[index / bits_per_block] |= block_bitmask(index)`. -/
def set (a : BitArray) (index : Nat) : BitArray :=
  { a with
    blocks := a.blocks.set (index / a.w)
      (a.blocks.getD (index / a.w) 0 ||| block_bitmask a.w index) }

/-- `clear(index)`: `blocks[index / bits_per_block] &= ~block_bitmask(index)`;
on a `w`-bit block, `~m` is `(2 ^ w - 1) ^^^ m`. -/
def clear (a : BitArray) (index : Nat) : BitArray :=
  { a with
    blocks := a.blocks.set (index / a.w)
      (a.blocks.getD (index / a.w) 0 &&&
        ((2 ^ a.w - 1) ^^^ block_bitmask a.w index)) }

/-- `set_all()`: `for (long long i = 0; i < bits; i++) set(i);` -/
def set_all (a : BitArray) : BitArray :=
  (List.range a.bits).foldl set a

/-- `clear_all()`: `for (long long i = 0; i < bits; i++) clear(i);` -/
def clear_all (a : BitArray) : BitArray :=
  (List.range a.bits).foldl clear a

/-- The allocation size of the constructor:
`(num_bits / bits_per_block) + !!(num_bits % bits_per_block)`. -/
def block_count (w num_bits : Nat) : Nat :=
  num_bits / w + if num_bits % w ≠ 0 then 1 else 0

/-- The state right after `new block_type[...]`: `block_count` blocks holding
the indeterminate values `init 0, init 1, ...` (reduced to `w`-bit values),
with `bits = num_bits`. -/
def raw_construct (w : Nat) (init : Nat → Nat) (num_bits : Nat) : BitArray :=
  { w := w
    blocks := (List.range (block_count w num_bits)).map (fun i => init i % 2 ^ w)
    bits := num_bits }

/-- `BitArray(long long num_bits)`: allocates the buffer (contents
indeterminate, supplied by `init`), records `bits`, then runs `clear_all()`. -/
def construct (w : Nat) (init : Nat → Nat) (num_bits : Nat) : BitArray :=
  clear_all (raw_construct w init num_bits)

/-- `accessible(bit)`: `bit < bits`. -/
def accessible (a : BitArray) (bit : Nat) : Bool :=
  bit < a.bits

/-- The single recoverable error of the design (`std::range_error{"index out
of range"}` thrown by `at`). -/
inductive BitError where
  | indexOutOfRange
deriving DecidableEq

/-- `at(index)`: `if (accessible(index)) return bit_at(index); else throw`. -/
def at' (a : BitArray) (index : Nat) : Except BitError Bool :=
  if accessible a index then .ok (bit_at a index) else .error .indexOutOfRange

/-- `operator[](index)`: unchecked read, `bit_at(index)`. -/
def op_index (a : BitArray) (index : Nat) : Bool :=
  bit_at a index

/-- `size()`: `bits`. -/
def size (a : BitArray) : Nat :=
  a.bits

/-- Forward iterator state: `ptr` is the block pointer as an offset from the
start of the buffer, `current_idx` the in-block offset (`long long`). -/
structure Iterator where
  ptr : Int
  current_idx : Int
deriving DecidableEq

/-- `Iterator::operator++`:
`if (current_idx + 1 < bits_per_block) current_idx++;
else { current_idx = 0; ptr++; }`. -/
def Iterator.inc (w : Nat) (it : Iterator) : Iterator :=
  if it.current_idx + 1 < (w : Int) then { it with current_idx := it.current_idx + 1 }
  else { ptr := it.ptr + 1, current_idx := 0 }

/-- `Iterator::operator--`:
`if (current_idx == 0) { current_idx = bits_per_block - 1; ptr--; }
else current_idx--;`. -/
def Iterator.dec (w : Nat) (it : Iterator) : Iterator :=
  if it.current_idx = 0 then { ptr := it.ptr - 1, current_idx := (w : Int) - 1 }
  else { it with current_idx := it.current_idx - 1 }

/-- `Iterator::operator*`: `*ptr & block_bitmask(current_idx)`. -/
def Iterator.deref (a : BitArray) (it : Iterator) : Bool :=
  a.blocks.getD it.ptr.toNat 0 &&& block_bitmask a.w it.current_idx.toNat != 0

/-- `begin()`: `iterator{blocks, 0}`. -/
def begin (a : BitArray) : Iterator :=
  { ptr := 0, current_idx := 0 }

/-- `end()`: `iterator{blocks + (bits / bits_per_block), (bits % bits_per_block)}`. -/
def end_ (a : BitArray) : Iterator :=
  { ptr := (a.bits / a.w : Nat), current_idx := (a.bits % a.w : Nat) }

/-- Reverse iterator state, same representation as `Iterator`. -/
structure ReverseIterator where
  ptr : Int
  current_idx : Int
deriving DecidableEq

/-- `ReverseIterator::ReverseIterator(IterType *ptr, long long idx, long long nbits)`:
initialises the members to `ptr` and `idx`; then
`if (idx < 0) { current_idx = bits_per_block - 1; ptr--; }`.
In the body, `ptr` names the constructor *parameter*, which shadows the member
of the same name, so `ptr--` decrements the parameter and the member keeps the
value it was initialised with.  The `nbits` parameter is never read. -/
def ReverseIterator.construct (w : Nat) (ptr : Int) (idx : Int) (nbits : Int) :
    ReverseIterator :=
  if idx < 0 then { ptr := ptr, current_idx := (w : Int) - 1 }
  else { ptr := ptr, current_idx := idx }

/-- `ReverseIterator::operator++`:
`if (current_idx == 0) { current_idx = bits_per_block - 1; ptr--; }
else current_idx--;`. -/
def ReverseIterator.inc (w : Nat) (it : ReverseIterator) : ReverseIterator :=
  if it.current_idx = 0 then { ptr := it.ptr - 1, current_idx := (w : Int) - 1 }
  else { it with current_idx := it.current_idx - 1 }

/-- `ReverseIterator::operator--`:
`if (current_idx + 1 < bits_per_block) current_idx++;
else { current_idx = 0; ptr++; }`. -/
def ReverseIterator.dec (w : Nat) (it : ReverseIterator) : ReverseIterator :=
  if it.current_idx + 1 < (w : Int) then { it with current_idx := it.current_idx + 1 }
  else { ptr := it.ptr + 1, current_idx := 0 }

/-- `ReverseIterator::operator*`: `*ptr & block_bitmask(current_idx)`. -/
def ReverseIterator.deref (a : BitArray) (it : ReverseIterator) : Bool :=
  a.blocks.getD it.ptr.toNat 0 &&& block_bitmask a.w it.current_idx.toNat != 0

/-- `rbegin()`:
`reverse_iterator{blocks + (bits / bits_per_block),
 static_cast<long long>(bits % bits_per_block) - 1, bits}`. -/
def rbegin (a : BitArray) : ReverseIterator :=
  ReverseIterator.construct a.w (a.bits / a.w : Nat) ((a.bits % a.w : Nat) - 1 : Int) a.bits

/-- `rend()`: `reverse_iterator{blocks, -1, bits}`. -/
def rend (a : BitArray) : ReverseIterator :=
  ReverseIterator.construct a.w 0 (-1) a.bits

/-- The values produced by the loop `for (auto it = start; it != end(); ++it)
use(*it);`, observed for at most `fuel` iterations. -/
def collectFwd (a : BitArray) : Nat → Iterator → List Bool
  | 0, _ => []
  | fuel + 1, it =>
    if it = end_ a then []
    else Iterator.deref a it :: collectFwd a fuel (Iterator.inc a.w it)

/-- The values produced by the loop `for (auto it = start; it != rend(); ++it)
use(*it);`, observed for at most `fuel` iterations. -/
def collectRev (a : BitArray) : Nat → ReverseIterator → List Bool
  | 0, _ => []
  | fuel + 1, it =>
    if it = rend a then []
    else ReverseIterator.deref a it :: collectRev a fuel (ReverseIterator.inc a.w it)

/-- The C++ expression `1 << s` at type `int` (32-bit, two's complement):
defined for `s < 31` with value `2 ^ s`; for `s = 31` the C++20 value is the
wrapped `-2 ^ 31`; for `s ≥ 32` the shift is undefined behaviour (`none`). -/
def shl_one_int (s : Nat) : Option Int :=
  if s < 31 then some ((2 : Int) ^ s)
  else if s = 31 then some (-(2 ^ 31))
  else none

/-- `block_bitmask` exactly as written in the source: the `int`-typed shift
`1 << (bits_per_block - (index & (bits_per_block - 1)) - 1)`, converted to the
`w`-bit block type (reduction mod `2 ^ w`); `none` when the shift is
undefined behaviour. -/
def block_bitmask_cpp (w : Nat) (index : Nat) : Option Nat :=
  (shl_one_int (w - (index &&& (w - 1)) - 1)).map (fun v => (v % ((2 : Int) ^ w)).toNat)

/-- Ghost helper (not part of the source): the forward-iterator position that
corresponds to the global bit index `k` — block `k / w`, in-block offset
`k % w`. -/
def fwdPos (w k : Nat) : Iterator :=
  { ptr := (k / w : Nat), current_idx := (k % w : Nat) }

/-- Sample array for concrete witnesses: `BitArray<std::uint8_t>` of 5 bits. -/
def sample8x5 : BitArray :=
  construct 8 (fun _ => 0) 5

/-- Sample array for the spec's concrete scenario: `BitArray<std::uint8_t>` of
24 bits (the configuration of the repository's own demo driver). -/
def sample8x24 : BitArray :=
  construct 8 (fun _ => 0) 24

end BitArray

deriving instance DecidableEq for Except

namespace BitArray

/-! ### Arithmetic and bit-level helper lemmas -/

theorem and_two_pow_sub_one (x k : Nat) : x &&& (2 ^ k - 1) = x % 2 ^ k := by
  apply Nat.eq_of_testBit_eq
  intro j
  simp [Nat.testBit_land, Bool.and_comm]

theorem block_bitmask_pow (k i : Nat) :
    block_bitmask (2 ^ k) i = 2 ^ (2 ^ k - 1 - i % 2 ^ k) := by
  rw [block_bitmask, and_two_pow_sub_one, Nat.sub_right_comm]

theorem bne_zero_of_testBit {b p : Nat} :
    (b &&& 2 ^ p != 0) = b.testBit p := by
  rw [Nat.and_two_pow]
  cases h : b.testBit p <;> simp

theorem bit_at_testBit (a : BitArray) (k : Nat) (hw : a.w = 2 ^ k) (i : Nat) :
    bit_at a i = (a.blocks.getD (i / a.w) 0).testBit (a.w - 1 - i % a.w) := by
  rw [bit_at, hw, block_bitmask_pow, bne_zero_of_testBit]

theorem getD_set_self (l : List Nat) (i v d : Nat) (h : i < l.length) :
    (l.set i v).getD i d = v := by
  simp [List.getD_eq_getElem?_getD, List.getElem?_set_self, h]

theorem getD_set_ne (l : List Nat) {i j : Nat} (v d : Nat) (h : i ≠ j) :
    (l.set i v).getD j d = l.getD j d := by
  simp [List.getD_eq_getElem?_getD, List.getElem?_set_ne h]

theorem block_index_lt {w n i : Nat} (hw : 0 < w) (hi : i < n) :
    i / w < block_count w n := by
  rw [block_count]
  by_cases h : n % w = 0
  · rw [if_neg (by simp [h])]
    have hn : n = n / w * w := by
      conv_lhs => rw [← Nat.div_add_mod n w]
      rw [h, Nat.add_zero, Nat.mul_comm]
    rw [Nat.add_zero]
    rw [Nat.div_lt_iff_lt_mul hw]
    omega
  · rw [if_pos h]
    have h3 : i / w ≤ n / w := Nat.div_le_div_right (Nat.le_of_lt hi)
    omega

theorem mod_eq_sub_of_not_lt {m w : Nat} (hw : 0 < w) (h : ¬ m % w + 1 < w) :
    m % w = w - 1 := by
  have hr : m % w < w := Nat.mod_lt _ hw
  omega

theorem succ_div_mod_of_lt {m w : Nat} (hw : 0 < w) (h : m % w + 1 < w) :
    (m + 1) / w = m / w ∧ (m + 1) % w = m % w + 1 := by
  have key : m + 1 = (m % w + 1) + m / w * w := by
    rw [Nat.add_right_comm, Nat.mod_add_div']
  constructor
  · rw [key, Nat.add_mul_div_right _ _ hw, Nat.div_eq_of_lt h, Nat.zero_add]
  · rw [key, Nat.add_mul_mod_self_right, Nat.mod_eq_of_lt h]

theorem succ_div_mod_of_not_lt {m w : Nat} (hw : 0 < w) (h : ¬ m % w + 1 < w) :
    (m + 1) / w = m / w + 1 ∧ (m + 1) % w = 0 := by
  have hr := mod_eq_sub_of_not_lt hw h
  have key : m + 1 = (m / w + 1) * w := by
    have h2 := Nat.mod_add_div' m w
    rw [Nat.succ_mul]
    omega
  constructor
  · rw [key, Nat.mul_div_cancel _ hw]
  · rw [key, Nat.mul_mod_left]

/-! ### Field preservation -/

theorem set_w (a : BitArray) (i : Nat) : (set a i).w = a.w := rfl

theorem set_bits (a : BitArray) (i : Nat) : (set a i).bits = a.bits := rfl

theorem set_blocks_length (a : BitArray) (i : Nat) :
    (set a i).blocks.length = a.blocks.length := by
  simp [set]

theorem clear_w (a : BitArray) (i : Nat) : (clear a i).w = a.w := rfl

theorem clear_bits (a : BitArray) (i : Nat) : (clear a i).bits = a.bits := rfl

theorem clear_blocks_length (a : BitArray) (i : Nat) :
    (clear a i).blocks.length = a.blocks.length := by
  simp [clear]

theorem foldl_preserve {f : BitArray → Nat → BitArray}
    (hf : ∀ a i, (f a i).w = a.w ∧ (f a i).bits = a.bits ∧
      (f a i).blocks.length = a.blocks.length)
    (L : List Nat) (a : BitArray) :
    (L.foldl f a).w = a.w ∧ (L.foldl f a).bits = a.bits ∧
      (L.foldl f a).blocks.length = a.blocks.length := by
  induction L generalizing a with
  | nil => exact ⟨rfl, rfl, rfl⟩
  | cons x xs ih =>
    have h1 := hf a x
    have h2 := ih (f a x)
    simp only [List.foldl_cons]
    exact ⟨h2.1.trans h1.1, h2.2.1.trans h1.2.1, h2.2.2.trans h1.2.2⟩

theorem set_preserve : ∀ (a : BitArray) (i : Nat),
    (set a i).w = a.w ∧ (set a i).bits = a.bits ∧
      (set a i).blocks.length = a.blocks.length :=
  fun a i => ⟨rfl, rfl, set_blocks_length a i⟩

theorem clear_preserve : ∀ (a : BitArray) (i : Nat),
    (clear a i).w = a.w ∧ (clear a i).bits = a.bits ∧
      (clear a i).blocks.length = a.blocks.length :=
  fun a i => ⟨rfl, rfl, clear_blocks_length a i⟩

/-! ### Effect and frame lemmas for `set` and `clear` -/

/-- A well-formed array: the block width comes from an integral block type
(power-of-two bit width) and the buffer has the allocation size chosen by the
constructor. -/
def WF (a : BitArray) (k : Nat) : Prop :=
  a.w = 2 ^ k ∧ a.blocks.length = block_count a.w a.bits

theorem WF.w_pos {a : BitArray} {k : Nat} (h : WF a k) : 0 < a.w :=
  h.1 ▸ Nat.two_pow_pos k

theorem WF.block_lt {a : BitArray} {k i : Nat} (h : WF a k) (hi : i < a.bits) :
    i / a.w < a.blocks.length :=
  h.2 ▸ block_index_lt h.w_pos hi

theorem offset_lt {a : BitArray} {k : Nat} (h : WF a k) (i : Nat) :
    a.w - 1 - i % a.w < a.w := by
  have := h.w_pos
  omega

theorem offset_ne {w i j : Nat} (hw : 0 < w) (hdiv : j / w = i / w) (hne : j ≠ i) :
    w - 1 - j % w ≠ w - 1 - i % w := by
  have hi : i % w < w := Nat.mod_lt _ hw
  have hj : j % w < w := Nat.mod_lt _ hw
  have hmod : j % w ≠ i % w := by
    intro hmod
    apply hne
    rw [← Nat.div_add_mod j w, ← Nat.div_add_mod i w, hdiv, hmod]
  omega

theorem bit_at_set_self {a : BitArray} {k : Nat} (h : WF a k) {i : Nat}
    (hi : i < a.bits) : bit_at (set a i) i = true := by
  rw [bit_at_testBit (set a i) k h.1 i]
  show ((a.blocks.set (i / a.w) _).getD (i / a.w) 0).testBit (a.w - 1 - i % a.w) = true
  rw [getD_set_self _ _ _ _ (h.block_lt hi)]
  have hm : block_bitmask a.w i = 2 ^ (a.w - 1 - i % a.w) := by
    rw [h.1, block_bitmask_pow]
  rw [hm, Nat.testBit_lor, Nat.testBit_two_pow_self, Bool.or_true]

theorem bit_at_clear_self {a : BitArray} {k : Nat} (h : WF a k) {i : Nat}
    (hi : i < a.bits) : bit_at (clear a i) i = false := by
  rw [bit_at_testBit (clear a i) k h.1 i]
  show ((a.blocks.set (i / a.w) _).getD (i / a.w) 0).testBit (a.w - 1 - i % a.w) = false
  rw [getD_set_self _ _ _ _ (h.block_lt hi)]
  have hm : block_bitmask a.w i = 2 ^ (a.w - 1 - i % a.w) := by
    rw [h.1, block_bitmask_pow]
  rw [hm, Nat.testBit_land, Nat.testBit_xor, Nat.testBit_two_pow_sub_one,
    Nat.testBit_two_pow_self, decide_eq_true (offset_lt h i)]
  simp

theorem bit_at_set_other {a : BitArray} {k : Nat} (h : WF a k) {i : Nat}
    (hi : i < a.bits) {j : Nat} (hne : j ≠ i) :
    bit_at (set a i) j = bit_at a j := by
  rw [bit_at_testBit (set a i) k h.1 j, bit_at_testBit a k h.1 j]
  show ((a.blocks.set (i / a.w) _).getD (j / (set a i).w) 0).testBit _ = _
  rw [set_w]
  by_cases hdiv : j / a.w = i / a.w
  · rw [hdiv, getD_set_self _ _ _ _ (h.block_lt hi)]
    have hm : block_bitmask a.w i = 2 ^ (a.w - 1 - i % a.w) := by
      rw [h.1, block_bitmask_pow]
    rw [hm, Nat.testBit_lor, ← hdiv,
      Nat.testBit_two_pow_of_ne (Ne.symm (offset_ne h.w_pos hdiv hne)), Bool.or_false]
  · rw [getD_set_ne _ _ _ (fun hh => hdiv hh.symm)]

theorem bit_at_clear_other {a : BitArray} {k : Nat} (h : WF a k) {i : Nat}
    (hi : i < a.bits) {j : Nat} (hne : j ≠ i) :
    bit_at (clear a i) j = bit_at a j := by
  rw [bit_at_testBit (clear a i) k h.1 j, bit_at_testBit a k h.1 j]
  show ((a.blocks.set (i / a.w) _).getD (j / (clear a i).w) 0).testBit _ = _
  rw [clear_w]
  by_cases hdiv : j / a.w = i / a.w
  · rw [hdiv, getD_set_self _ _ _ _ (h.block_lt hi)]
    have hm : block_bitmask a.w i = 2 ^ (a.w - 1 - i % a.w) := by
      rw [h.1, block_bitmask_pow]
    rw [hm, Nat.testBit_land, Nat.testBit_xor, Nat.testBit_two_pow_sub_one, ← hdiv,
      Nat.testBit_two_pow_of_ne (Ne.symm (offset_ne h.w_pos hdiv hne)),
      decide_eq_true (offset_lt h j)]
    simp
  · rw [getD_set_ne _ _ _ (fun hh => hdiv hh.symm)]

/-! ### Bulk operations -/

theorem WF_foldl_set {a : BitArray} {k : Nat} (h : WF a k) (L : List Nat) :
    WF (L.foldl set a) k := by
  have hp := foldl_preserve set_preserve L a
  exact ⟨hp.1.trans h.1, by rw [hp.1, hp.2.1, hp.2.2]; exact h.2⟩

theorem WF_foldl_clear {a : BitArray} {k : Nat} (h : WF a k) (L : List Nat) :
    WF (L.foldl clear a) k := by
  have hp := foldl_preserve clear_preserve L a
  exact ⟨hp.1.trans h.1, by rw [hp.1, hp.2.1, hp.2.2]; exact h.2⟩

theorem bit_at_foldl_set_range {a : BitArray} {k : Nat} (h : WF a k)
    {n : Nat} (hn : n ≤ a.bits) (j : Nat) :
    bit_at ((List.range n).foldl set a) j = if j < n then true else bit_at a j := by
  induction n with
  | zero => simp
  | succ n ih =>
    have hp := foldl_preserve set_preserve (List.range n) a
    have hwf : WF ((List.range n).foldl set a) k := WF_foldl_set h (List.range n)
    have hbits : ((List.range n).foldl set a).bits = a.bits := hp.2.1
    rw [List.range_succ, List.foldl_append, List.foldl_cons, List.foldl_nil]
    by_cases hj : j = n
    · subst hj
      rw [bit_at_set_self hwf (hbits ▸ Nat.lt_of_lt_of_le (Nat.lt_succ_self j) hn),
        if_pos (Nat.lt_succ_self j)]
    · rw [bit_at_set_other hwf (hbits ▸ Nat.lt_of_lt_of_le (Nat.lt_succ_self n) hn) hj,
        ih (Nat.le_of_succ_le hn)]
      by_cases hlt : j < n
      · rw [if_pos hlt, if_pos (Nat.lt_succ_of_lt hlt)]
      · rw [if_neg hlt, if_neg (by omega)]

theorem bit_at_foldl_clear_range {a : BitArray} {k : Nat} (h : WF a k)
    {n : Nat} (hn : n ≤ a.bits) (j : Nat) :
    bit_at ((List.range n).foldl clear a) j = if j < n then false else bit_at a j := by
  induction n with
  | zero => simp
  | succ n ih =>
    have hp := foldl_preserve clear_preserve (List.range n) a
    have hwf : WF ((List.range n).foldl clear a) k := WF_foldl_clear h (List.range n)
    have hbits : ((List.range n).foldl clear a).bits = a.bits := hp.2.1
    rw [List.range_succ, List.foldl_append, List.foldl_cons, List.foldl_nil]
    by_cases hj : j = n
    · subst hj
      rw [bit_at_clear_self hwf (hbits ▸ Nat.lt_of_lt_of_le (Nat.lt_succ_self j) hn),
        if_pos (Nat.lt_succ_self j)]
    · rw [bit_at_clear_other hwf (hbits ▸ Nat.lt_of_lt_of_le (Nat.lt_succ_self n) hn) hj,
        ih (Nat.le_of_succ_le hn)]
      by_cases hlt : j < n
      · rw [if_pos hlt, if_pos (Nat.lt_succ_of_lt hlt)]
      · rw [if_neg hlt, if_neg (by omega)]

theorem bit_at_set_all {a : BitArray} {k : Nat} (h : WF a k) (j : Nat) :
    bit_at (set_all a) j = if j < a.bits then true else bit_at a j :=
  bit_at_foldl_set_range h (Nat.le_refl _) j

theorem bit_at_clear_all {a : BitArray} {k : Nat} (h : WF a k) (j : Nat) :
    bit_at (clear_all a) j = if j < a.bits then false else bit_at a j :=
  bit_at_foldl_clear_range h (Nat.le_refl _) j

/-! ### Forward iterator lemmas -/

theorem begin_eq_fwdPos (a : BitArray) : begin a = fwdPos a.w 0 := by
  simp [begin, fwdPos]

theorem end_eq_fwdPos (a : BitArray) : end_ a = fwdPos a.w a.bits := rfl

theorem inc_fwdPos {w : Nat} (hw : 0 < w) (m : Nat) :
    Iterator.inc w (fwdPos w m) = fwdPos w (m + 1) := by
  by_cases h : m % w + 1 < w
  · have hcond : ((m % w : Nat) : Int) + 1 < (w : Int) := by exact_mod_cast h
    obtain ⟨hdiv, hmod⟩ := succ_div_mod_of_lt hw h
    simp only [Iterator.inc, fwdPos, if_pos hcond, hdiv, hmod]
    constructor <;> push_cast <;> ring
  · have hcond : ¬ (((m % w : Nat) : Int) + 1 < (w : Int)) := by
      intro hc
      exact h (by exact_mod_cast hc)
    obtain ⟨hdiv, hmod⟩ := succ_div_mod_of_not_lt hw h
    simp only [Iterator.inc, fwdPos, if_neg hcond, hdiv, hmod]
    constructor <;> push_cast <;> ring

theorem iterate_inc_fwdPos {w : Nat} (hw : 0 < w) (n : Nat) :
    (Iterator.inc w)^[n] (fwdPos w 0) = fwdPos w n := by
  induction n with
  | zero => rfl
  | succ n ih => rw [Function.iterate_succ_apply', ih, inc_fwdPos hw]

theorem fwdPos_inj {w : Nat} (hw : 0 < w) {m n : Nat}
    (h : fwdPos w m = fwdPos w n) : m = n := by
  have h1 : m / w = n / w := by
    have hh := congrArg Iterator.ptr h
    simp only [fwdPos] at hh
    exact_mod_cast hh
  have h2 : m % w = n % w := by
    have hh := congrArg Iterator.current_idx h
    simp only [fwdPos] at hh
    exact_mod_cast hh
  conv_lhs => rw [← Nat.div_add_mod m w]
  conv_rhs => rw [← Nat.div_add_mod n w]
  rw [h1, h2]

theorem deref_fwdPos (a : BitArray) {k : Nat} (hw : a.w = 2 ^ k) (m : Nat) :
    Iterator.deref a (fwdPos a.w m) = bit_at a m := by
  have hpos : 0 < a.w := hw ▸ Nat.two_pow_pos k
  have hmask : block_bitmask a.w (m % a.w) = block_bitmask a.w m := by
    rw [hw, block_bitmask_pow, block_bitmask_pow,
      Nat.mod_eq_of_lt (Nat.mod_lt _ (hw ▸ hpos))]
  simp only [Iterator.deref, fwdPos, Int.toNat_natCast, hmask, bit_at]

theorem collectFwd_from (a : BitArray) {k : Nat} (hw : a.w = 2 ^ k)
    (fuel : Nat) :
    ∀ m, m ≤ a.bits → a.bits - m < fuel →
      collectFwd a fuel (fwdPos a.w m) =
        (List.range (a.bits - m)).map (fun t => bit_at a (m + t)) := by
  have hpos : 0 < a.w := hw ▸ Nat.two_pow_pos k
  induction fuel with
  | zero => intro m _ hfuel; exact absurd hfuel (Nat.not_lt_zero _)
  | succ fuel ih =>
    intro m hm hfuel
    by_cases hend : m = a.bits
    · subst hend
      rw [collectFwd, if_pos (end_eq_fwdPos a).symm, Nat.sub_self]
      simp
    · have hlt : m < a.bits := Nat.lt_of_le_of_ne hm hend
      have hne : fwdPos a.w m ≠ end_ a := by
        rw [end_eq_fwdPos]
        intro hc
        exact hend (fwdPos_inj hpos hc)
      rw [collectFwd, if_neg hne, deref_fwdPos a hw, inc_fwdPos hpos,
        ih (m + 1) hlt (by omega)]
      have hd : a.bits - m = (a.bits - (m + 1)) + 1 := by omega
      rw [hd, List.range_succ_eq_map, List.map_cons, List.map_map, Nat.add_zero]
      congr 1
      apply List.map_congr_left
      intro t _
      show bit_at a (m + 1 + t) = bit_at a (m + Nat.succ t)
      rw [Nat.add_right_comm m 1 t]
      rfl

/-! ### Idempotence of `set` and `clear` -/

theorem set_set {a : BitArray} {k : Nat} (h : WF a k) {i : Nat} (hi : i < a.bits) :
    set (set a i) i = set a i := by
  have hbl := h.block_lt hi
  show ({ a with blocks := _ } : BitArray) = { a with blocks := _ }
  congr 1
  show (a.blocks.set (i / a.w) _).set (i / a.w)
      ((a.blocks.set (i / a.w) _).getD (i / a.w) 0 ||| block_bitmask a.w i) = _
  rw [getD_set_self _ _ _ _ hbl, List.set_set, Nat.or_assoc, Nat.or_self]

theorem clear_clear {a : BitArray} {k : Nat} (h : WF a k) {i : Nat} (hi : i < a.bits) :
    clear (clear a i) i = clear a i := by
  have hbl := h.block_lt hi
  show ({ a with blocks := _ } : BitArray) = { a with blocks := _ }
  congr 1
  show (a.blocks.set (i / a.w) _).set (i / a.w)
      ((a.blocks.set (i / a.w) _).getD (i / a.w) 0 &&&
        ((2 ^ a.w - 1) ^^^ block_bitmask a.w i)) = _
  rw [getD_set_self _ _ _ _ hbl, List.set_set, Nat.and_assoc, Nat.and_self]

/-! ### Construction lemmas -/

theorem raw_construct_fields (w : Nat) (init : Nat → Nat) (n : Nat) :
    (raw_construct w init n).w = w ∧ (raw_construct w init n).bits = n ∧
      (raw_construct w init n).blocks.length = block_count w n := by
  refine ⟨rfl, rfl, ?_⟩
  simp [raw_construct]

theorem WF_raw_construct {w k : Nat} (hw : w = 2 ^ k) (init : Nat → Nat) (n : Nat) :
    WF (raw_construct w init n) k :=
  ⟨hw, (raw_construct_fields w init n).2.2⟩

theorem construct_fields (w : Nat) (init : Nat → Nat) (n : Nat) :
    (construct w init n).w = w ∧ (construct w init n).bits = n ∧
      (construct w init n).blocks.length = block_count w n := by
  have hp := foldl_preserve clear_preserve (List.range (raw_construct w init n).bits)
    (raw_construct w init n)
  exact ⟨hp.1, hp.2.1, hp.2.2.trans (raw_construct_fields w init n).2.2⟩

theorem WF_construct {w k : Nat} (hw : w = 2 ^ k) (init : Nat → Nat) (n : Nat) :
    WF (construct w init n) k :=
  WF_foldl_clear (WF_raw_construct hw init n) _

theorem bit_at_construct {w k : Nat} (hw : w = 2 ^ k) (init : Nat → Nat) {n i : Nat}
    (hi : i < n) : bit_at (construct w init n) i = false := by
  rw [construct, clear_all, bit_at_foldl_clear_range (WF_raw_construct hw init n)
    (Nat.le_refl _) i]
  simp only [raw_construct]
  rw [if_pos hi]

theorem bit_at_construct_padding {w k : Nat} (hw : w = 2 ^ k) (init : Nat → Nat)
    {n j : Nat} (hj : n ≤ j) :
    bit_at (construct w init n) j = bit_at (raw_construct w init n) j := by
  rw [construct, clear_all, bit_at_foldl_clear_range (WF_raw_construct hw init n)
    (Nat.le_refl _) j]
  simp only [raw_construct]
  rw [if_neg (by omega)]

theorem block_count_eq_ceil {w : Nat} (hw : 0 < w) (n : Nat) :
    block_count w n = (n + w - 1) / w := by
  have hq := Nat.mod_add_div' n w
  have hr : n % w < w := Nat.mod_lt _ hw
  rw [block_count]
  by_cases h : n % w = 0
  · rw [if_neg (by simp [h])]
    have key : n + w - 1 = (w - 1) + n / w * w := by
      obtain ⟨t, ht⟩ : ∃ t, n / w * w = t := ⟨_, rfl⟩
      rw [ht] at hq ⊢
      omega
    rw [Nat.add_zero, key, Nat.add_mul_div_right _ _ hw,
      Nat.div_eq_of_lt (show w - 1 < w by omega), Nat.zero_add]
  · rw [if_pos h]
    have key : n + w - 1 = (n % w - 1) + (n / w + 1) * w := by
      rw [Nat.succ_mul]
      obtain ⟨t, ht⟩ : ∃ t, n / w * w = t := ⟨_, rfl⟩
      rw [ht] at hq ⊢
      omega
    rw [key, Nat.add_mul_div_right _ _ hw,
      Nat.div_eq_of_lt (show n % w - 1 < w by omega), Nat.zero_add]

/-! ### The claims -/

/-- C1: for every bit array over a power-of-two block width, forward iteration
from `begin` to `end` yields exactly `size()` booleans, the `k`-th being the
value of bit `k` (the value `at(k)` returns for `k < size()`); equivalently,
applying `operator++` `size()` times from `begin` reaches exactly the `end`
sentinel `(bits / block_width, bits mod block_width)`, and never earlier. -/
theorem C1_forward_iteration (a : BitArray) (k : Nat) (hw : a.w = 2 ^ k) :
    collectFwd a (size a + 1) (begin a) =
      (List.range (size a)).map (fun i => bit_at a i) ∧
    (∀ i, i < size a → at' a i = .ok (bit_at a i)) ∧
    (Iterator.inc a.w)^[size a] (begin a) = end_ a ∧
    (∀ m, m < size a → (Iterator.inc a.w)^[m] (begin a) ≠ end_ a) := by
  have hpos : 0 < a.w := hw ▸ Nat.two_pow_pos k
  refine ⟨?_, ?_, ?_, ?_⟩
  · rw [begin_eq_fwdPos,
      collectFwd_from a hw _ 0 (Nat.zero_le _) (by simp [size])]
    simp only [size, Nat.sub_zero]
    apply List.map_congr_left
    intro t _
    rw [Nat.zero_add]
  · intro i hi
    simp [at', accessible, show i < a.bits from hi]
  · rw [begin_eq_fwdPos, iterate_inc_fwdPos hpos, end_eq_fwdPos]
    rfl
  · intro m hm
    rw [begin_eq_fwdPos, iterate_inc_fwdPos hpos, end_eq_fwdPos]
    intro hc
    have := fwdPos_inj hpos hc
    have hm' : m < a.bits := hm
    omega

/-- Witness for C1: block width 8, 5 bits — forward iteration yields the five
(cleared) bits. -/
theorem C1_forward_iteration_witness :
    collectFwd sample8x5 (size sample8x5 + 1) (begin sample8x5) =
      [false, false, false, false, false] :=
  (C1_forward_iteration sample8x5 3 rfl).1.trans (by decide)

/-- C2 (code bug): with block width 8 and 9 bits, reverse iteration from
`rbegin` to `rend` yields a single boolean instead of `size() = 9`; when the
raw offset passed to the reverse-iterator constructor is negative the offset
is set to `block_width - 1` but the block pointer is NOT stepped back (the
`ptr--` in the constructor body decrements the shadowing parameter, not the
member), so `ReverseIterator(blocks + 1, -1, 8)` stays on block offset 1, and
`rend` sits at (first block, offset `block_width - 1`) — the position of
logical bit 7 — instead of one before the first bit. -/
theorem C2_reverse_iteration_bug :
    size (construct 8 (fun _ => 0) 9) = 9 ∧
    collectRev (construct 8 (fun _ => 0) 9) 10
      (rbegin (construct 8 (fun _ => 0) 9)) = [false] ∧
    ReverseIterator.construct 8 1 (-1) 8 = { ptr := 1, current_idx := 7 } ∧
    rend (construct 8 (fun _ => 0) 9) = { ptr := 0, current_idx := 7 } := by
  decide

/-- C3: constructing with `n` bits allocates exactly
`ceil(n / block_width)` blocks, records `size() = n`, and every index
`i < n` reads as cleared through both `at` and `operator[]`. -/
theorem C3_construct_clears (w k : Nat) (hw : w = 2 ^ k) (init : Nat → Nat)
    (n : Nat) :
    (construct w init n).blocks.length = block_count w n ∧
    block_count w n = (n + w - 1) / w ∧
    size (construct w init n) = n ∧
    (∀ i, i < n → at' (construct w init n) i = .ok false ∧
      op_index (construct w init n) i = false) := by
  have hpos : 0 < w := hw ▸ Nat.two_pow_pos k
  refine ⟨(construct_fields w init n).2.2, block_count_eq_ceil hpos n,
    (construct_fields w init n).2.1, ?_⟩
  intro i hi
  have hb := bit_at_construct hw init hi
  have hacc : i < (construct w init n).bits := by
    rw [(construct_fields w init n).2.1]
    exact hi
  exact ⟨by simp [at', accessible, hacc, hb], hb⟩

/-- Witness for C3: block width 8, 5 bits — one block, 5 cleared bits. -/
theorem C3_construct_clears_witness :
    (construct 8 (fun _ => 0) 5).blocks.length = 1 ∧
    at' (construct 8 (fun _ => 0) 5) 2 = .ok false :=
  ⟨((C3_construct_clears 8 3 rfl (fun _ => 0) 5).1).trans (by decide),
   ((C3_construct_clears 8 3 rfl (fun _ => 0) 5).2.2.2 2 (by decide)).1⟩

/-- C4: `at(i)` fails with IndexOutOfRange exactly when `i ≥ size()` (exactly
when `accessible(i)` is false), succeeds with the value of bit `i` otherwise,
and IndexOutOfRange is the only error value it can ever produce (`at` is the
only fallible operation in the model; it is a pure read, so the array is
unchanged in every case). -/
theorem C4_at_bounds (a : BitArray) (i : Nat) :
    (at' a i = .error .indexOutOfRange ↔ size a ≤ i) ∧
    (accessible a i = true ↔ i < size a) ∧
    (i < size a → at' a i = .ok (bit_at a i)) ∧
    (∀ e, at' a i = .error e → e = .indexOutOfRange) := by
  by_cases h : i < a.bits
  · simp [at', accessible, size, h, Nat.not_le_of_lt h]
  · simp [at', accessible, size, h, Nat.le_of_not_lt h]

/-- Witness for C4: out-of-range and in-range accesses on the sample array. -/
theorem C4_at_bounds_witness :
    at' sample8x5 7 = .error .indexOutOfRange ∧ at' sample8x5 2 = .ok false :=
  ⟨(C4_at_bounds sample8x5 7).1.mpr (by decide),
   ((C4_at_bounds sample8x5 2).2.2.1 (by decide)).trans (by decide)⟩

/-- C5 (code bug): the mask is computed by shifting the `int` literal `1`.
For block widths 8, 16 and 32 the value stored in the block type equals the
specified `2 ^ (block_width - i % block_width - 1)`, but for a 64-bit block
type the shift count reaches 63 ≥ 32 (the width of `int`), which is undefined
behaviour (`none`), while the specification requires the mask of bit 0 to be
`2 ^ 63`. -/
theorem C5_bitmask_int_shift :
    block_bitmask_cpp 64 0 = none ∧
    block_bitmask 64 0 = 2 ^ 63 ∧
    block_bitmask_cpp 8 0 = some (block_bitmask 8 0) ∧
    block_bitmask_cpp 8 11 = some (block_bitmask 8 11) ∧
    block_bitmask_cpp 16 5 = some (block_bitmask 16 5) ∧
    block_bitmask_cpp 32 0 = some (block_bitmask 32 0) := by
  decide

/-- C6: for every valid index, `set(i)` then `at(i)` gives true, `clear(i)`
then `at(i)` gives false, and `set`/`clear` are idempotent (repeating them
leaves the whole array state unchanged). -/
theorem C6_set_clear_roundtrip (a : BitArray) (k i : Nat) (hw : a.w = 2 ^ k)
    (hlen : a.blocks.length = block_count a.w a.bits) (hi : i < size a) :
    at' (set a i) i = .ok true ∧
    at' (clear a i) i = .ok false ∧
    set (set a i) i = set a i ∧
    clear (clear a i) i = clear a i := by
  have h : WF a k := ⟨hw, hlen⟩
  have hi' : i < a.bits := hi
  refine ⟨?_, ?_, set_set h hi', clear_clear h hi'⟩
  · have hacc : i < (set a i).bits := hi'
    simp [at', accessible, hacc, bit_at_set_self h hi']
  · have hacc : i < (clear a i).bits := hi'
    simp [at', accessible, hacc, bit_at_clear_self h hi']

/-- Witness for C6 at block width 8, 5 bits, index 2. -/
theorem C6_set_clear_roundtrip_witness :
    at' (set sample8x5 2) 2 = .ok true ∧
    set (set sample8x5 2) 2 = set sample8x5 2 :=
  ⟨(C6_set_clear_roundtrip sample8x5 3 2 rfl (by decide) (by decide)).1,
   (C6_set_clear_roundtrip sample8x5 3 2 rfl (by decide) (by decide)).2.2.1⟩

/-- C7: `set(i)`/`clear(i)` change at most bit `i` and leave every other
logical bit unchanged; `set_all`/`clear_all` touch exactly the bits in
`[0, size())` and leave the padding bits of the final block untouched (as do
`set`/`clear` of a valid index); and the spec's concrete scenario: block
width 8, size 24 — after `set_all()` then `clear(0)` the checked accessor
reads `0` then 23 ones, and `set(0)` restores the all-ones state exactly. -/
theorem C7_frame (a : BitArray) (k i : Nat) (hw : a.w = 2 ^ k)
    (hlen : a.blocks.length = block_count a.w a.bits) (hi : i < size a) :
    (∀ j, j < size a → j ≠ i →
      bit_at (set a i) j = bit_at a j ∧ bit_at (clear a i) j = bit_at a j) ∧
    (∀ j, j < size a →
      bit_at (set_all a) j = true ∧ bit_at (clear_all a) j = false) ∧
    (∀ j, size a ≤ j →
      bit_at (set a i) j = bit_at a j ∧ bit_at (clear a i) j = bit_at a j ∧
      bit_at (set_all a) j = bit_at a j ∧ bit_at (clear_all a) j = bit_at a j) ∧
    (List.range 24).map (fun t => at' (clear (set_all sample8x24) 0) t) =
      .ok false :: List.replicate 23 (.ok true) ∧
    set (clear (set_all sample8x24) 0) 0 = set_all sample8x24 := by
  have h : WF a k := ⟨hw, hlen⟩
  have hi' : i < a.bits := hi
  refine ⟨?_, ?_, ?_, by decide, by decide⟩
  · intro j hj hne
    exact ⟨bit_at_set_other h hi' hne, bit_at_clear_other h hi' hne⟩
  · intro j hj
    have hj' : j < a.bits := hj
    rw [bit_at_set_all h j, if_pos hj', bit_at_clear_all h j, if_pos hj']
    exact ⟨rfl, rfl⟩
  · intro j hj
    have hj' : a.bits ≤ j := hj
    have hne : j ≠ i := by omega
    refine ⟨bit_at_set_other h hi' hne, bit_at_clear_other h hi' hne, ?_, ?_⟩
    · rw [bit_at_set_all h j, if_neg (by omega)]
    · rw [bit_at_clear_all h j, if_neg (by omega)]

/-- Witness for C7 at block width 8, 5 bits, index 2. -/
theorem C7_frame_witness :
    bit_at (set sample8x5 2) 1 = bit_at sample8x5 1 ∧
    bit_at (set_all sample8x5) 3 = true :=
  ⟨((C7_frame sample8x5 3 2 rfl (by decide) (by decide)).1 1 (by decide)
      (by decide)).1,
   ((C7_frame sample8x5 3 2 rfl (by decide) (by decide)).2.1 3 (by decide)).1⟩

/-- C8 counterexample: block width 8, 5 requested bits, indeterminate buffer
contents 7 (padding bits at offsets 5, 6, 7 set).  After construction the
single allocated block equals 7, not 0: the block buffer is not entirely
zero-initialized. -/
theorem C8_counterexample :
    (construct 8 (fun _ => 7) 5).blocks = [7] ∧
    (construct 8 (fun _ => 7) 5).blocks.all (fun b => b == 0) = false := by
  decide

/-- C8 (amended): at creation every logical bit `i < bits` reads as cleared,
for every possible indeterminate initial content of the allocation; the
physical padding bits beyond `bits` in a partially-filled final block keep
their indeterminate initial value — they are not zeroed. -/
theorem C8_logical_zeroing (w k : Nat) (hw : w = 2 ^ k) (init : Nat → Nat)
    (n : Nat) :
    (∀ i, i < n → bit_at (construct w init n) i = false) ∧
    (∀ j, n ≤ j →
      bit_at (construct w init n) j = bit_at (raw_construct w init n) j) :=
  ⟨fun _ hi => bit_at_construct hw init hi,
   fun _ hj => bit_at_construct_padding hw init hj⟩

/-- Witness for C8 (amended) at block width 8, 5 bits, initial contents 7. -/
theorem C8_logical_zeroing_witness :
    bit_at (construct 8 (fun _ => 7) 5) 4 = false ∧
    bit_at (construct 8 (fun _ => 7) 5) 7 =
      bit_at (raw_construct 8 (fun _ => 7) 5) 7 :=
  ⟨(C8_logical_zeroing 8 3 rfl (fun _ => 7) 5).1 4 (by decide),
   (C8_logical_zeroing 8 3 rfl (fun _ => 7) 5).2 7 (by decide)⟩

/-- C9: for a bit array of size 0, `begin == end`, `rbegin == rend`, neither
loop performs a step or a dereference (the collected sequence is empty for
every fuel), and `at(0)` fails with IndexOutOfRange. -/
theorem C9_empty_array (w : Nat) (init : Nat → Nat) :
    begin (construct w init 0) = end_ (construct w init 0) ∧
    rbegin (construct w init 0) = rend (construct w init 0) ∧
    (∀ fuel, collectFwd (construct w init 0) fuel (begin (construct w init 0)) = []) ∧
    (∀ fuel, collectRev (construct w init 0) fuel (rbegin (construct w init 0)) = []) ∧
    at' (construct w init 0) 0 = .error .indexOutOfRange := by
  have hA : construct w init 0 = ⟨w, [], 0⟩ := by
    simp [construct, raw_construct, clear_all, block_count]
  rw [hA]
  have h1 : begin ⟨w, [], 0⟩ = end_ ⟨w, [], 0⟩ := by
    simp [begin, end_]
  have h2 : rbegin ⟨w, [], 0⟩ = rend ⟨w, [], 0⟩ := by
    simp [rbegin, rend]
  refine ⟨h1, h2, ?_, ?_, ?_⟩
  · intro fuel
    cases fuel with
    | zero => rfl
    | succ fuel => rw [collectFwd, if_pos h1]
  · intro fuel
    cases fuel with
    | zero => rfl
    | succ fuel => rw [collectRev, if_pos h2]
  · simp [at', accessible]

/-- C10: the reverse-iterator constructor ignores its total-bit-count
parameter entirely: for any block pointer and raw offset, any two total-bit
counts produce identical iterators (hence identical behaviour under every
subsequent step and dereference). -/
theorem C10_nbits_unused (w : Nat) (p idx n1 n2 : Int) :
    ReverseIterator.construct w p idx n1 = ReverseIterator.construct w p idx n2 :=
  rfl

end BitArray
